import Mathlib

/-!
Verification of the AWS transcription workflow repository.

The JavaScript Lambda sources (`functions/storeSubtitles.js`,
`functions/startTranscribe.js`, `functions/monitorTranscribe.js`, the upload
handler, the video splitter) and the Step Functions state machine from
`terraform/lambda.tf` are shallowly embedded below.  Strings are modelled by
`String`, JavaScript numbers that hold byte counts by `Nat`/`Rat`, fallible
external calls (AWS Transcribe, DynamoDB, ffmpeg) by `Except`/oracle
parameters, and the DynamoDB job registry by explicit lists of writes.
-/

/-! ## Generic string and decimal-digit helpers -/

theorem strData_append (a b : String) : (a ++ b).data = a.data ++ b.data := rfl

theorem strExt {a b : String} (h : a.data = b.data) : a = b := by
  cases a; cases b; exact congrArg String.mk h

theorem strAppend_assoc (a b c : String) : a ++ b ++ c = a ++ (b ++ c) :=
  strExt (by simp [strData_append])

theorem strAppend_empty (a : String) : a ++ "" = a :=
  strExt (by simp [strData_append])

theorem strEmpty_append (a : String) : "" ++ a = a :=
  strExt (by simp [strData_append])

/-- ASCII decimal digit test, `'0'` through `'9'`. -/
def isDigitChar (c : Char) : Bool := decide ('0' ≤ c) && decide (c ≤ '9')

/-- Value of an ASCII digit character. -/
def digitVal (c : Char) : Nat := c.toNat - 48

/-- ASCII character of a digit value below 10. -/
def digitChar (d : Nat) : Char := Char.ofNat (48 + d)

theorem digitVal_digitChar {d : Nat} (h : d < 10) : digitVal (digitChar d) = d := by
  interval_cases d <;> decide

theorem isDigitChar_digitChar {d : Nat} (h : d < 10) : isDigitChar (digitChar d) = true := by
  interval_cases d <;> decide

/-- Big-endian decimal rendering of a positive number, as the JavaScript
`String(n)` template interpolation produces; the first argument is fuel making
the division recursion structural. -/
def toDecimalAux : Nat → Nat → List Char
  | 0, _ => []
  | _ + 1, 0 => []
  | fuel + 1, n + 1 => toDecimalAux fuel ((n + 1) / 10) ++ [digitChar ((n + 1) % 10)]

/-- JavaScript `String(n)` for a non-negative integer. -/
def natToString (n : Nat) : String :=
  if n = 0 then "0" else String.mk (toDecimalAux n n)

/-- Big-endian decimal value of a digit-character list, as a left fold. -/
def digitsToNat (cs : List Char) : Nat :=
  cs.foldl (fun a c => a * 10 + digitVal c) 0

theorem digitsToNat_append (a b : List Char) :
    digitsToNat (a ++ b) = b.foldl (fun a c => a * 10 + digitVal c) (digitsToNat a) := by
  simp [digitsToNat, List.foldl_append]

theorem toDecimalAux_all_digits :
    ∀ fuel n, ∀ c ∈ toDecimalAux fuel n, isDigitChar c = true := by
  intro fuel
  induction fuel with
  | zero => intro n c hc; simp [toDecimalAux] at hc
  | succ fuel ih =>
      intro n c hc
      match n with
      | 0 => simp [toDecimalAux] at hc
      | n + 1 =>
          simp only [toDecimalAux, List.mem_append, List.mem_singleton] at hc
          rcases hc with hc | hc
          · exact ih _ c hc
          · subst hc; exact isDigitChar_digitChar (Nat.mod_lt _ (by omega))

theorem toDecimalAux_ne_nil {fuel n : Nat} (hn : 0 < n) (hf : n ≤ fuel) :
    toDecimalAux fuel n ≠ [] := by
  cases fuel with
  | zero => omega
  | succ fuel =>
      cases n with
      | zero => omega
      | succ n => simp [toDecimalAux]

theorem digitsToNat_toDecimalAux :
    ∀ fuel n, n ≤ fuel → digitsToNat (toDecimalAux fuel n) = n := by
  intro fuel
  induction fuel with
  | zero => intro n h; interval_cases n; simp [toDecimalAux, digitsToNat]
  | succ fuel ih =>
      intro n h
      match n with
      | 0 => simp [toDecimalAux, digitsToNat]
      | n + 1 =>
          have hdiv : (n + 1) / 10 ≤ fuel := by omega
          simp only [toDecimalAux, digitsToNat_append, List.foldl_cons, List.foldl_nil]
          rw [show digitsToNat (toDecimalAux fuel ((n + 1) / 10)) = (n + 1) / 10 from
            ih _ hdiv]
          rw [digitVal_digitChar (Nat.mod_lt _ (by omega))]
          omega

theorem natToString_data_all_digits (n : Nat) :
    ∀ c ∈ (natToString n).data, isDigitChar c = true := by
  intro c hc
  by_cases h : n = 0
  · subst h; simp [natToString] at hc; subst hc; decide
  · simp [natToString, h] at hc
    exact toDecimalAux_all_digits n n c hc

theorem natToString_data_ne_nil (n : Nat) : (natToString n).data ≠ [] := by
  by_cases h : n = 0
  · subst h; simp [natToString]
  · simp only [natToString, h, if_false]
    exact toDecimalAux_ne_nil (by omega) le_rfl

theorem digitsToNat_natToString (n : Nat) : digitsToNat (natToString n).data = n := by
  by_cases h : n = 0
  · subst h; simp [natToString]; decide
  · simp only [natToString, h, if_false]
    exact digitsToNat_toDecimalAux n n le_rfl

theorem natToString_injective {a b : Nat} (h : natToString a = natToString b) : a = b := by
  have := congrArg (fun s => digitsToNat s.data) h
  simpa [digitsToNat_natToString] using this

/-! ## `mergeSubtitles` from `functions/storeSubtitles.js` (lines 52-68)

The JavaScript walks the subtitle documents with their indices, appending
`"\n\n"` before every document after the first and then the document itself;
no SRT parsing, timestamp shifting or cue renumbering happens. -/

def mergeSubtitles (subtitleContents : List String) : String :=
  subtitleContents.enum.foldl
    (fun merged ic => (if ic.1 > 0 then merged ++ "\n\n" else merged) ++ ic.2) ""

/-- Concatenation of the documents in input order with `"\n\n"` inserted
before each document after the first, stated directly from the claim's words,
to be compared with `mergeSubtitles`. -/
def sepConcat : List String → String
  | [] => ""
  | [s] => s
  | s :: rest => s ++ "\n\n" ++ sepConcat rest

/-- Tail of the separated concatenation: every document prefixed by the
separator. -/
def sepTail : List String → String
  | [] => ""
  | s :: rest => "\n\n" ++ s ++ sepTail rest

theorem mergeSubtitles_foldl_enumFrom (xs : List String) :
    ∀ (k : Nat) (acc : String), 1 ≤ k →
      (List.enumFrom k xs).foldl
        (fun merged ic => (if ic.1 > 0 then merged ++ "\n\n" else merged) ++ ic.2) acc
        = acc ++ sepTail xs := by
  induction xs with
  | nil => intro k acc _; simp [sepTail, strAppend_empty]
  | cons x rest ih =>
      intro k acc hk
      have hkpos : k > 0 := hk
      simp only [List.enumFrom, List.foldl_cons, hkpos, if_pos, sepTail]
      rw [ih (k + 1) _ (by omega)]
      simp [strAppend_assoc]

theorem sepConcat_cons :
    ∀ (xs : List String) (x : String), sepConcat (x :: xs) = x ++ sepTail xs := by
  intro xs
  induction xs with
  | nil => intro x; simp [sepConcat, sepTail, strAppend_empty]
  | cons y ys ih =>
      intro x
      simp only [sepConcat]
      rw [ih y]
      simp [sepTail, strAppend_assoc]

theorem mergeSubtitles_eq_sepConcat (l : List String) :
    mergeSubtitles l = sepConcat l := by
  cases l with
  | nil => rfl
  | cons x xs =>
      have h0 : List.enum (x :: xs) = (0, x) :: List.enumFrom 1 xs := rfl
      simp only [mergeSubtitles, h0, List.foldl_cons, gt_iff_lt, Nat.lt_irrefl, if_neg,
        Nat.not_lt_zero, reduceIte]
      rw [mergeSubtitles_foldl_enumFrom xs 1 _ le_rfl, sepConcat_cons]
      rw [strEmpty_append]

theorem sepConcat_mem_infix (l : List String) :
    ∀ s ∈ l, ∃ p q, sepConcat l = p ++ s ++ q := by
  induction l with
  | nil => intro s hs; simp at hs
  | cons x xs ih =>
      intro s hs
      rcases List.mem_cons.1 hs with hsx | hsxs
      · subst hsx
        exact ⟨"", sepTail xs, by rw [sepConcat_cons, strEmpty_append]⟩
      · rcases ih s hsxs with ⟨p, q, hpq⟩
        cases xs with
        | nil => simp at hsxs
        | cons y ys =>
            refine ⟨x ++ "\n\n" ++ p, q, ?_⟩
            simp only [sepConcat, hpq, strAppend_assoc]

/-- **C10.** The implemented merge returns exactly the concatenation of the
input documents in input order with `"\n\n"` inserted before each document
after the first, and every input document appears verbatim (as a contiguous
substring) in the output: no cue timestamp is shifted and no cue index is
renumbered by the merge. -/
theorem mergeSubtitles_is_plain_concatenation (l : List String) (hne : l ≠ []) :
    mergeSubtitles l = sepConcat l ∧
      ∀ s ∈ l, ∃ p q, mergeSubtitles l = p ++ s ++ q := by
  refine ⟨mergeSubtitles_eq_sepConcat l, fun s hs => ?_⟩
  rw [mergeSubtitles_eq_sepConcat]
  exact sepConcat_mem_infix l s hs

theorem mergeSubtitles_is_plain_concatenation_witness :
    (["alpha", "beta"] : List String) ≠ [] ∧
      mergeSubtitles ["alpha", "beta"] = sepConcat ["alpha", "beta"] ∧
      ∃ p q, mergeSubtitles ["alpha", "beta"] = p ++ "beta" ++ q :=
  ⟨by decide,
    (mergeSubtitles_is_plain_concatenation ["alpha", "beta"] (by decide)).1,
    (mergeSubtitles_is_plain_concatenation ["alpha", "beta"] (by decide)).2 "beta"
      (by decide)⟩

/-- **C1.** Evaluating the implemented merge at two single-cue SRT documents:
the result is the raw concatenation with a blank-line separator.  The second
document's cue still starts at `00:00:00,000` and still carries index `1`,
so no offset accumulation, renumbering, or 100 ms gap insertion happens, and
the merged output violates `cue[i].end ≤ cue[i+1].start` and index
contiguity. -/
theorem mergeSubtitles_does_not_shift_timestamps :
    mergeSubtitles
        ["1\n00:00:00,000 --> 00:00:01,000\nfirst",
         "1\n00:00:00,000 --> 00:00:01,000\nsecond"]
      = "1\n00:00:00,000 --> 00:00:01,000\nfirst\n\n1\n00:00:00,000 --> 00:00:01,000\nsecond" := by
  decide

/-! ## `onUploadHandler` size check (CheckFileSize Lambda, lines 44-59)

`fileSizeMB = ContentLength / (1024*1024)` followed by the strict comparison
`fileSizeMB > MAX_FILE_SIZE_MB ? "split" : "transcribe"`.  Division of an
integer byte count by the power of two `2^20` and comparison against the
parsed threshold are exact in IEEE doubles, so the arithmetic is modelled
faithfully over `Rat`. -/

inductive SizeAction where
  | split
  | transcribe
deriving DecidableEq

def classify (fileSizeMB maxFileSizeMB : ℚ) : SizeAction :=
  if fileSizeMB > maxFileSizeMB then .split else .transcribe

def checkFileSize (contentLength : Nat) (maxFileSizeMB : ℚ) : SizeAction :=
  classify ((contentLength : ℚ) / (1024 * 1024)) maxFileSizeMB

/-- **C9.** The size classifier is the pure strict comparison: it answers
`split` exactly when the size strictly exceeds the threshold — on the
boundary `classify 100 100` it answers the direct path (`transcribe`) and
`classify 101 100` answers `split` — and at the byte level the handler
splits exactly when the byte count strictly exceeds the threshold scaled to
bytes. -/
theorem classify_strict_threshold :
    (∀ fileSizeMB maxFileSizeMB : ℚ,
        classify fileSizeMB maxFileSizeMB = .split ↔ maxFileSizeMB < fileSizeMB) ∧
    classify 100 100 = .transcribe ∧
    classify 101 100 = .split ∧
    (∀ (contentLength : Nat) (maxFileSizeMB : ℚ),
        checkFileSize contentLength maxFileSizeMB = .split ↔
          maxFileSizeMB * (1024 * 1024) < (contentLength : ℚ)) := by
  have hbase : ∀ fileSizeMB maxFileSizeMB : ℚ,
      classify fileSizeMB maxFileSizeMB = .split ↔ maxFileSizeMB < fileSizeMB := by
    intro s t
    by_cases h : s > t <;> simp [classify, h]
  refine ⟨hbase, by decide, by decide, fun n m => ?_⟩
  rw [checkFileSize, hbase]
  rw [lt_div_iff₀ (by norm_num : (0 : ℚ) < 1024 * 1024)]

/-! ## `splitVideo` handler (video splitter Lambda, lines 84-188)

The ffmpeg invocation is the external splitter oracle: `.ok paths` models a
normal exit with the sorted list of produced `chunk_*.mp4` files, `.error`
an abnormal termination (`execAsync` rejecting).  The handler uploads each
chunk under `chunks/{baseName}/chunk_{3-digit}.mp4` and returns the chunk
manifest; it performs no check that at least one segment was produced. -/

/-- The characters of `s` after the last `/`, i.e. the JavaScript
`replace(/^.*\x2f/, "")`. -/
def afterLastSlashAux : List Char → List Char → List Char
  | [], acc => acc.reverse
  | '/' :: rest, _ => afterLastSlashAux rest []
  | c :: rest, acc => afterLastSlashAux rest (c :: acc)

def afterLastSlash (s : String) : String :=
  String.mk (afterLastSlashAux s.data [])

/-- JavaScript `replace(/\.mp4$/, "")`: strip a trailing `.mp4`. -/
def stripMp4 (s : String) : String :=
  if ['.', 'm', 'p', '4'].isSuffixOf s.data then
    String.mk (s.data.take (s.data.length - 4))
  else s

/-- JavaScript `String(n).padStart(3, "0")`. -/
def padStart3 (n : Nat) : String :=
  String.mk (List.replicate (3 - (natToString n).length) '0' ++ (natToString n).data)

structure ChunkRef where
  bucket : String
  key : String
  originalKey : String
  chunkIndex : Nat
  totalChunks : Nat
deriving DecidableEq

structure SplitResult where
  message : String
  chunks : List ChunkRef
  originalKey : String
  totalChunks : Nat
deriving DecidableEq

def splitVideoHandler (bucket key originalKey : String)
    (ffmpegResult : Except String (List String)) : Except String SplitResult :=
  match ffmpegResult with
  | .error e => .error e
  | .ok chunkPaths =>
      let baseFileName := if originalKey ≠ "" then originalKey else key
      let baseName := stripMp4 baseFileName
      .ok { message := "Video split successfully",
            chunks := chunkPaths.enum.map fun ic =>
              { bucket := bucket,
                key := "chunks/" ++ baseName ++ "/chunk_" ++ padStart3 (ic.1 + 1) ++ ".mp4",
                originalKey := baseFileName,
                chunkIndex := ic.1 + 1,
                totalChunks := chunkPaths.length },
            originalKey := baseFileName,
            totalChunks := chunkPaths.length }

/-- **C4 counterexample.** When the splitter tool terminates normally with
zero segments, the handler returns a successful result carrying an empty
segment list — no `SplitError` and no validation failure occur, refuting
the claim that zero segments always fail. -/
theorem splitVideoHandler_accepts_zero_segments :
    splitVideoHandler "bucket" "k.mp4" "k.mp4" (.ok []) =
      .ok { message := "Video split successfully", chunks := [],
            originalKey := "k.mp4", totalChunks := 0 } := by
  rfl

/-- **C4 (amended).** The handler propagates an abnormal tool termination as
a failure and otherwise succeeds with exactly the segments the tool
produced, indexed `1..N` — in particular zero produced segments yield a
successful result with an empty segment list rather than a `SplitError`. -/
theorem splitVideoHandler_propagates_tool_outcome :
    ∀ (bucket key originalKey e : String) (files : List String),
      splitVideoHandler bucket key originalKey (.error e) = .error e ∧
      ∃ r, splitVideoHandler bucket key originalKey (.ok files) = .ok r ∧
        r.chunks.length = files.length ∧
        r.totalChunks = files.length ∧
        r.chunks.map ChunkRef.chunkIndex = List.range' 1 files.length := by
  intro bucket key originalKey e files
  refine ⟨rfl, _, rfl, by simp [splitVideoHandler], rfl, ?_⟩
  have hmap : (files.enum.map fun ic => ic.1 + 1) = List.range' 1 files.length := by
    rw [List.range'_eq_map_range,
      show (fun ic : Nat × String => ic.1 + 1) = (fun x => x + 1) ∘ Prod.fst from rfl,
      ← List.map_map, List.enum_map_fst]
    simp [Nat.add_comm]
  simpa only [splitVideoHandler, List.map_map, Function.comp] using hmap

/-! ## `storeSubtitles` final key computation (lines 261-262 and 311-319)

`baseFileName = originalKey.replace(/\.mp4$/, "").replace(/^.*\x2f/, "")`,
then the final S3 key is `{base}/chunk_{3-digit}/{language}.srt` when
`totalChunks > 1` and `{base}/{language}.srt` otherwise. -/

def storeBaseFileName (originalKey : String) : String :=
  afterLastSlash (stripMp4 originalKey)

def subtitleFinalKey (originalKey language : String) (chunkIndex totalChunks : Nat) : String :=
  if totalChunks > 1 then
    storeBaseFileName originalKey ++ "/chunk_" ++ padStart3 chunkIndex ++ "/" ++ language ++ ".srt"
  else
    storeBaseFileName originalKey ++ "/" ++ language ++ ".srt"

/-- **C5 counterexample.** In the direct-path scenario (`demo.mp4`, language
`english`, not split) the handler stores the subtitle at `demo/english.srt`,
not at the extensionless canonical path `demo/english` the claim names. -/
theorem subtitleFinalKey_carries_srt_extension :
    subtitleFinalKey "demo.mp4" "english" 0 1 = "demo/english.srt" ∧
      ("demo/english.srt" : String) ≠ "demo/english" := by
  decide

/-- **C5 (amended).** The completed job's output is stored at
`{baseName}/{language}.srt` when the source was not split
(`totalChunks ≤ 1`) and at `{baseName}/chunk_{3-digit-index}/{language}.srt`
when it belongs to a chunk of a split file; for `demo.mp4` with language
`english` the direct path yields `demo/english.srt` with no chunk
subdirectory. -/
theorem subtitleFinalKey_canonical_paths :
    (∀ (originalKey language : String) (chunkIndex totalChunks : Nat),
        totalChunks ≤ 1 →
          subtitleFinalKey originalKey language chunkIndex totalChunks
            = storeBaseFileName originalKey ++ "/" ++ language ++ ".srt") ∧
    (∀ (originalKey language : String) (chunkIndex totalChunks : Nat),
        1 < totalChunks →
          subtitleFinalKey originalKey language chunkIndex totalChunks
            = storeBaseFileName originalKey ++ "/chunk_" ++ padStart3 chunkIndex
                ++ "/" ++ language ++ ".srt") ∧
    storeBaseFileName "demo.mp4" = "demo" ∧
    subtitleFinalKey "demo.mp4" "english" 0 1 = "demo/english.srt" ∧
    subtitleFinalKey "videos/movie.mp4" "english" 2 3 = "movie/chunk_002/english.srt" := by
  refine ⟨fun o l ci tc htc => ?_, fun o l ci tc htc => ?_, by decide, by decide, by decide⟩
  · have : ¬ tc > 1 := by omega
    simp [subtitleFinalKey, this]
  · simp [subtitleFinalKey, htc]

theorem subtitleFinalKey_canonical_paths_witness :
    (1 : Nat) ≤ 1 ∧ (1 : Nat) < 3 ∧
      subtitleFinalKey "demo.mp4" "english" 0 1
        = storeBaseFileName "demo.mp4" ++ "/" ++ "english" ++ ".srt" ∧
      subtitleFinalKey "videos/movie.mp4" "english" 2 3
        = storeBaseFileName "videos/movie.mp4" ++ "/chunk_" ++ padStart3 2
            ++ "/" ++ "english" ++ ".srt" :=
  ⟨by decide, by decide,
    subtitleFinalKey_canonical_paths.1 "demo.mp4" "english" 0 1 (by decide),
    subtitleFinalKey_canonical_paths.2.1 "videos/movie.mp4" "english" 2 3 (by decide)⟩

/-! ## `monitorTranscribe` handler (lines 118-160) and the state machine
choice `CheckMonitoringResult` / `WaitBeforeRetry` (`terraform/lambda.tf`
lines 438-453)

The handler polls the English job by name: on `COMPLETED` it writes
`COMPLETED` (with the transcript URI) to the registry and returns
`allComplete = true`; on `FAILED` it writes `FAILED` and returns
`allComplete = false`; otherwise it writes nothing and returns
`allComplete = false`.  The Choice state sends `allComplete = true` to
`StoreSubtitles` and everything else to the 30 s `WaitBeforeRetry`, which
loops back to `MonitorTranscription`. -/

inductive TStatus where
  | inProgress
  | completed
  | failed
deriving DecidableEq

structure CompletedJob where
  language : String
  jobId : String
  transcriptUri : Option String
deriving DecidableEq

structure MonitorResult where
  message : String
  allComplete : Bool
  completedJobs : List CompletedJob
deriving DecidableEq

/-- One `updateJobStatus` registry write: job id, new status, transcript URI. -/
structure RegistryWrite where
  jobId : String
  status : TStatus
  transcriptUri : Option String
deriving DecidableEq

def monitorHandler (jobName : String) (svcStatus : TStatus) (uri : Option String) :
    MonitorResult × List RegistryWrite :=
  match svcStatus with
  | .completed =>
      ({ message := "Job completed", allComplete := true,
         completedJobs := [{ language := "english", jobId := jobName, transcriptUri := uri }] },
       [{ jobId := jobName, status := .completed, transcriptUri := uri }])
  | .failed =>
      ({ message := "Job still in progress", allComplete := false, completedJobs := [] },
       [{ jobId := jobName, status := .failed, transcriptUri := none }])
  | .inProgress =>
      ({ message := "Job still in progress", allComplete := false, completedJobs := [] }, [])

inductive SfnState where
  | MonitorTranscription
  | StoreSubtitles
  | WaitBeforeRetry
  | SuccessState
  | FailureState
deriving DecidableEq

def checkMonitoringResult (r : MonitorResult) : SfnState :=
  if r.allComplete = true then .StoreSubtitles else .WaitBeforeRetry

def waitBeforeRetryNext : SfnState := .MonitorTranscription

/-- **C2 counterexample.** A `FAILED` English job produces the very same
caller-visible result as a still-running job (`allComplete = false`, empty
`completedJobs`), so the `CheckMonitoringResult` choice re-enters the
30-second wait-and-poll loop instead of transitioning to the `Fail` state:
failure is not distinguishable by the caller and does not fail the
workflow. -/
theorem monitorFailed_reenters_poll_loop :
    (monitorHandler "job1" .failed none).1.allComplete = false ∧
    (monitorHandler "job1" .failed none).1 = (monitorHandler "job1" .inProgress none).1 ∧
    checkMonitoringResult (monitorHandler "job1" .failed none).1 = .WaitBeforeRetry ∧
    waitBeforeRetryNext = .MonitorTranscription ∧
    SfnState.WaitBeforeRetry ≠ SfnState.FailureState := by
  decide

/-- **C2 (amended).** The poll reports `allComplete = true` exactly when the
required (English) job is `Completed`, and the choice state proceeds to the
merge/store step exactly in that case; but a `Failed` job returns the same
caller-visible result as an incomplete one, so the branch re-enters the
wait-and-poll loop (`WaitBeforeRetry → MonitorTranscription`) rather than
transitioning to `Fail`; the failure is recorded only in the job registry. -/
theorem monitor_allComplete_iff_completed :
    (∀ (jobName : String) (s : TStatus) (uri : Option String),
        (monitorHandler jobName s uri).1.allComplete = true ↔ s = .completed) ∧
    (∀ (jobName : String) (uri : Option String),
        (monitorHandler jobName .failed uri).1 = (monitorHandler jobName .inProgress uri).1) ∧
    (∀ r, checkMonitoringResult r = .StoreSubtitles ↔ r.allComplete = true) ∧
    (∀ r, checkMonitoringResult r = .WaitBeforeRetry ↔ r.allComplete = false) ∧
    waitBeforeRetryNext = .MonitorTranscription := by
  refine ⟨fun j s u => ?_, fun j u => rfl, fun r => ?_, fun r => ?_, rfl⟩
  · cases s <;> simp [monitorHandler]
  · by_cases h : r.allComplete <;> simp [checkMonitoringResult, h]
  · by_cases h : r.allComplete <;> simp [checkMonitoringResult, h]

/-! ## Registry status writes as a state machine (C7)

`updateJobStatus` unconditionally overwrites the stored status with the one
the external service reported; the handler issues such a write only for
terminal service statuses.  `registryUpdate` is the net effect of one poll
on the stored status, and `registryRun` folds any interleaving (a list of
service read times, in write order) over the registry.  The external
service is modelled as a status trace that is stable after reaching a
terminal status, which is how AWS Transcribe behaves and how the spec
treats terminal states. -/

def terminalB : TStatus → Bool
  | .inProgress => false
  | .completed => true
  | .failed => true

/-- Net effect of a list of `updateJobStatus` writes on the stored status
(each write overwrites the status unconditionally). -/
def applyStatusWrites (r : TStatus) (ws : List RegistryWrite) : TStatus :=
  ws.foldl (fun _ w => w.status) r

/-- Effect of one poll observing service status `obs` on a stored status. -/
def registryUpdate (r obs : TStatus) : TStatus :=
  match obs with
  | .completed => .completed
  | .failed => .failed
  | .inProgress => r

theorem pollWrite_eq_registryUpdate (jobName : String) (uri : Option String)
    (r s : TStatus) :
    applyStatusWrites r (monitorHandler jobName s uri).2 = registryUpdate r s := by
  cases s <;> rfl

/-- Stored status after a sequence of polls of the same job, reading the
service at the given times, applied in list order. -/
def registryRun (σ : Nat → TStatus) (r : TStatus) (ts : List Nat) : TStatus :=
  ts.foldl (fun cur t => applyStatusWrites cur (monitorHandler "job" (σ t) none).2) r

/-- The service status trace never leaves a terminal status. -/
def StableTrace (σ : Nat → TStatus) : Prop :=
  ∀ t u, t ≤ u → terminalB (σ t) = true → σ u = σ t

theorem registryUpdate_terminal {s : TStatus} (r : TStatus) (h : terminalB s = true) :
    registryUpdate r s = s := by
  cases s <;> simp_all [registryUpdate, terminalB]

theorem not_terminal_inProgress {s : TStatus} (h : terminalB s = false) : s = .inProgress := by
  cases s <;> simp_all [terminalB]

theorem registryRun_eq_foldl (σ : Nat → TStatus) (r : TStatus) (ts : List Nat) :
    registryRun σ r ts = ts.foldl (fun cur t => registryUpdate cur (σ t)) r := by
  unfold registryRun
  congr 1
  funext cur t
  exact pollWrite_eq_registryUpdate "job" none cur (σ t)

theorem stableTrace_terminal_eq {σ : Nat → TStatus} (hσ : StableTrace σ) {t u : Nat}
    (ht : terminalB (σ t) = true) (hu : terminalB (σ u) = true) : σ t = σ u := by
  rcases le_total t u with h | h
  · exact (hσ t u h ht).symm
  · exact hσ u t h hu

theorem foldl_update_no_terminal (σ : Nat → TStatus) :
    ∀ (ts : List Nat) (r : TStatus), (∀ t ∈ ts, terminalB (σ t) = false) →
      ts.foldl (fun cur t => registryUpdate cur (σ t)) r = r := by
  intro ts
  induction ts with
  | nil => intro r _; rfl
  | cons t ts ih =>
      intro r hall
      have h1 : σ t = .inProgress := not_terminal_inProgress (hall t (by simp))
      simp only [List.foldl_cons, h1, registryUpdate]
      exact ih r fun u hu => hall u (by simp [hu])

theorem foldl_update_with_terminal (σ : Nat → TStatus) (v : TStatus)
    (hv : terminalB v = true) :
    ∀ (ts : List Nat) (r : TStatus),
      (∀ t ∈ ts, terminalB (σ t) = true → σ t = v) →
      (∃ t ∈ ts, terminalB (σ t) = true) →
      ts.foldl (fun cur t => registryUpdate cur (σ t)) r = v := by
  intro ts
  induction ts with
  | nil => intro r _ hex; simp at hex
  | cons t ts ih =>
      intro r hall hex
      cases hterm : terminalB (σ t) with
      | true =>
          have hv1 : σ t = v := hall t (by simp) hterm
          simp only [List.foldl_cons, hv1, registryUpdate_terminal _ hv]
          by_cases hex2 : ∃ u ∈ ts, terminalB (σ u) = true
          · exact ih v (fun u hu => hall u (by simp [hu])) hex2
          · push_neg at hex2
            exact foldl_update_no_terminal σ ts v fun u hu => by
              have := hex2 u hu
              cases h : terminalB (σ u)
              · rfl
              · exact absurd h this
      | false =>
          have h1 : σ t = .inProgress := not_terminal_inProgress hterm
          simp only [List.foldl_cons, h1, registryUpdate]
          refine ih r (fun u hu => hall u (by simp [hu])) ?_
          rcases hex with ⟨u, hu, hut⟩
          rcases List.mem_cons.1 hu with rfl | hu2
          · rw [hterm] at hut; cases hut
          · exact ⟨u, hu2, hut⟩

/-- **C7.** Registry-status invariant of the monitor: the status write of a
poll is exactly `registryUpdate`; re-applying the same observation is
idempotent; a write never moves a record back to the in-progress
(submitted) status; and — for a service whose trace is stable once terminal
— any interleaving (any write order / read times) of concurrent pollers on
the same job converges to the same final status, and further polls after a
terminal status has been stored are safe no-ops. -/
theorem jobRegistry_status_monotone (σ : Nat → TStatus) (hσ : StableTrace σ) :
    (∀ (jobName : String) (uri : Option String) (r s : TStatus),
        applyStatusWrites r (monitorHandler jobName s uri).2 = registryUpdate r s) ∧
    (∀ r s, registryUpdate (registryUpdate r s) s = registryUpdate r s) ∧
    (∀ r s, r ≠ .inProgress → registryUpdate r s ≠ .inProgress) ∧
    (∀ ts ts', ts.Perm ts' →
        registryRun σ .inProgress ts = registryRun σ .inProgress ts') ∧
    (∀ ts t, terminalB (registryRun σ .inProgress ts) = true →
        registryRun σ .inProgress (ts ++ [t]) = registryRun σ .inProgress ts) := by
  have hchar : ∀ ts : List Nat,
      (∀ t ∈ ts, terminalB (σ t) = false) ∨
      (∃ v, terminalB v = true ∧ registryRun σ .inProgress ts = v ∧
        ∃ t ∈ ts, terminalB (σ t) = true ∧ σ t = v) := by
    intro ts
    by_cases hex : ∃ t ∈ ts, terminalB (σ t) = true
    · rcases hex with ⟨t0, ht0, ht0t⟩
      refine Or.inr ⟨σ t0, ht0t, ?_, t0, ht0, ht0t, rfl⟩
      rw [registryRun_eq_foldl]
      exact foldl_update_with_terminal σ (σ t0) ht0t ts _
        (fun u _ hu => stableTrace_terminal_eq hσ hu ht0t) ⟨t0, ht0, ht0t⟩
    · push_neg at hex
      left
      intro t ht
      cases h : terminalB (σ t)
      · rfl
      · exact absurd h (hex t ht)
  refine ⟨fun j u r s => pollWrite_eq_registryUpdate j u r s,
    fun r s => by cases s <;> rfl,
    fun r s hr => by cases s <;> simp [registryUpdate] <;> exact hr,
    fun ts ts' hperm => ?_, fun ts t hterm => ?_⟩
  · rcases hchar ts with hno | ⟨v, hv, hrun, t0, ht0, ht0t, ht0v⟩
    · have hno2 : ∀ t ∈ ts', terminalB (σ t) = false := fun t ht =>
        hno t (hperm.mem_iff.2 ht)
      rw [registryRun_eq_foldl, registryRun_eq_foldl,
        foldl_update_no_terminal σ ts _ hno,
        foldl_update_no_terminal σ ts' _ hno2]
    · rw [hrun, registryRun_eq_foldl]
      exact (foldl_update_with_terminal σ v hv ts' _
        (fun u _ hu => by rw [← ht0v]; exact stableTrace_terminal_eq hσ hu ht0t)
        ⟨t0, hperm.mem_iff.1 ht0, by rw [ht0t]⟩).symm
  · rcases hchar ts with hno | ⟨v, hv, hrun, t0, ht0, ht0t, ht0v⟩
    · rw [registryRun_eq_foldl, foldl_update_no_terminal σ ts _ hno] at hterm
      cases hterm
    · have hsplit : registryRun σ .inProgress (ts ++ [t])
          = registryUpdate (registryRun σ .inProgress ts) (σ t) := by
        rw [registryRun_eq_foldl σ .inProgress (ts ++ [t]), List.foldl_append,
          List.foldl_cons, List.foldl_nil, ← registryRun_eq_foldl]
      rw [hsplit, hrun]
      cases h : terminalB (σ t)
      · rw [not_terminal_inProgress h]; rfl
      · rw [show σ t = v from by
            rw [← ht0v]; exact stableTrace_terminal_eq hσ h ht0t,
          registryUpdate_terminal _ hv]

def constCompletedTrace : Nat → TStatus := fun _ => .completed

theorem jobRegistry_status_monotone_witness :
    StableTrace constCompletedTrace ∧
      registryRun constCompletedTrace .inProgress [0, 1]
        = registryRun constCompletedTrace .inProgress [1, 0] ∧
      registryUpdate (registryUpdate .inProgress .completed) .completed
        = registryUpdate .inProgress .completed :=
  ⟨fun t u h ht => rfl,
    (jobRegistry_status_monotone constCompletedTrace (fun t u h ht => rfl)).2.2.2.1
      [0, 1] [1, 0] (by decide),
    (jobRegistry_status_monotone constCompletedTrace (fun t u h ht => rfl)).2.1
      .inProgress .completed⟩

/-! ## `startTranscriptionJob` from `functions/startTranscribe.js` (lines 50-92)

The Transcribe call and the DynamoDB `PutItem` are oracles.  The JavaScript
persists the job record only after a successful Transcribe call, inside a
nested `try` whose `catch` merely logs (`// Continue even if DynamoDB write
fails`); a Transcribe failure is re-thrown before any persistence. -/

structure TranscribeJobResp where
  jobName : String
  jobStatus : Option String
deriving DecidableEq

structure JobRecord where
  jobId : String
  originalKey : String
  chunkIndex : Nat
  totalChunks : Nat
  language : String
  status : String
deriving DecidableEq

def startTranscriptionJob (jobName originalKey language : String)
    (chunkIndex totalChunks : Nat)
    (svc : Except String TranscribeJobResp) (db : Except String Unit) :
    Except String TranscribeJobResp × List JobRecord :=
  match svc with
  | .error e => (.error e, [])
  | .ok resp =>
      match db with
      | .ok _ =>
          (.ok resp,
            [{ jobId := jobName, originalKey := originalKey, chunkIndex := chunkIndex,
               totalChunks := totalChunks, language := language,
               status := resp.jobStatus.getD "IN_PROGRESS" }])
      | .error _ => (.ok resp, [])

/-- **C6 counterexample.** With a successful Transcribe submission but a
failing registry write, the submission still reports success while *no*
record is persisted — the DynamoDB error is swallowed — refuting the
claimed atomicity "service success ⟹ a record with status submitted is
persisted". -/
theorem startTranscriptionJob_swallows_registry_failure :
    startTranscriptionJob "job_x" "k.mp4" "english" 0 1
        (.ok { jobName := "job_x", jobStatus := some "IN_PROGRESS" }) (.error "db down")
      = (.ok { jobName := "job_x", jobStatus := some "IN_PROGRESS" }, []) := by
  rfl

/-- **C6 (amended).** On a job-service failure nothing is persisted and the
error propagates to the caller, for every registry outcome; on job-service
success with a successful registry write exactly one record is persisted,
carrying the service-reported status (default `IN_PROGRESS`, the model of
"submitted"); but a failing registry write is swallowed: the submission
still succeeds with no record persisted. -/
theorem startTranscriptionJob_persistence :
    ∀ (jobName originalKey language e de : String) (chunkIndex totalChunks : Nat)
      (resp : TranscribeJobResp) (db : Except String Unit),
      startTranscriptionJob jobName originalKey language chunkIndex totalChunks
          (.error e) db = (.error e, []) ∧
      startTranscriptionJob jobName originalKey language chunkIndex totalChunks
          (.ok resp) (.ok ())
        = (.ok resp,
            [{ jobId := jobName, originalKey := originalKey, chunkIndex := chunkIndex,
               totalChunks := totalChunks, language := language,
               status := resp.jobStatus.getD "IN_PROGRESS" }]) ∧
      startTranscriptionJob jobName originalKey language chunkIndex totalChunks
          (.ok resp) (.error de) = (.ok resp, []) := by
  intro jobName originalKey language e de chunkIndex totalChunks resp db
  exact ⟨by cases db <;> rfl, rfl, rfl⟩

/-! ## `generateJobName` from `functions/startTranscribe.js` (lines 14-19)

`job_${baseName}_${language}_${timestamp}${chunkSuffix}` where `baseName`
is the file key with every character outside `[a-zA-Z0-9]` replaced by `_`
and truncated to 50 characters, `timestamp` is `Date.now()` (the submission
instant, a parameter here), and `chunkSuffix` is `_chunk${chunkIndex}` for
a truthy (non-null, non-zero) chunk index and empty otherwise. -/

def isWordChar (c : Char) : Bool :=
  (decide ('a' ≤ c) && decide (c ≤ 'z')) ||
  (decide ('A' ≤ c) && decide (c ≤ 'Z')) ||
  (decide ('0' ≤ c) && decide (c ≤ '9'))

def sanitizeKey (s : String) : String :=
  String.mk (s.data.map fun c => if isWordChar c then c else '_')

def truncate50 (s : String) : String :=
  String.mk (s.data.take 50)

def generateJobName (fileKey language : String) (timestamp : Nat)
    (chunkIndex : Option Nat) : String :=
  "job_" ++ truncate50 (sanitizeKey fileKey) ++ "_" ++ language ++ "_"
    ++ natToString timestamp
    ++ (match chunkIndex with
        | some i => if i ≠ 0 then "_chunk" ++ natToString i else ""
        | none => "")

theorem strAppend_cancel_left {a b c : String} (h : a ++ b = a ++ c) : b = c := by
  have hd := congrArg String.data h
  rw [strData_append, strData_append] at hd
  exact strExt (List.append_cancel_left hd)

theorem natToString_append_inj {P suf : String} {t u : Nat}
    (h : P ++ natToString t ++ suf = P ++ natToString u ++ suf) : t = u := by
  rw [strAppend_assoc, strAppend_assoc] at h
  have h1 := congrArg String.data (strAppend_cancel_left h)
  rw [strData_append, strData_append] at h1
  have hlen : (natToString t).data.length = (natToString u).data.length := by
    have := congrArg List.length h1
    simp only [List.length_append] at this
    omega
  exact natToString_injective (strExt (List.append_inj h1 hlen).1)

/-- **C8 counterexample.** Sanitization is not injective: the distinct
segment keys `a.mp4` and `a_mp4` produce identical job ids at the same
language, chunk index and submission instant, refuting injectivity in the
segment-key component. -/
theorem generateJobName_collides_on_distinct_keys :
    ("a.mp4" : String) ≠ "a_mp4" ∧
      generateJobName "a.mp4" "english" 5 none = generateJobName "a_mp4" "english" 5 none := by
  constructor
  · decide
  · rfl

/-- **C8 (amended).** The job id is deterministic in (segment key, language,
chunk index, submission instant), and it is injective in the submission
instant, in the language (over the two languages the code submits), and in
the truthy chunk index — but not in the segment key, where sanitization and
50-character truncation can collide. -/
theorem generateJobName_partial_injectivity :
    (∀ (fileKey language : String) (chunkIndex : Option Nat) (t u : Nat), t ≠ u →
        generateJobName fileKey language t chunkIndex
          ≠ generateJobName fileKey language u chunkIndex) ∧
    (∀ (fileKey : String) (chunkIndex : Option Nat) (t : Nat),
        generateJobName fileKey "english" t chunkIndex
          ≠ generateJobName fileKey "spanish" t chunkIndex) ∧
    (∀ (fileKey language : String) (t i j : Nat), 0 < i → 0 < j → i ≠ j →
        generateJobName fileKey language t (some i)
          ≠ generateJobName fileKey language t (some j)) ∧
    (∀ (fileKey language : String) (t i : Nat), 0 < i →
        generateJobName fileKey language t (some i)
          ≠ generateJobName fileKey language t none) := by
  refine ⟨fun fk lang ci t u htu h => ?_, fun fk ci t h => ?_,
    fun fk lang t i j hi hj hij h => ?_, fun fk lang t i hi h => ?_⟩
  · exact htu (natToString_append_inj h)
  · simp only [generateJobName, strAppend_assoc] at h
    have h3 := strAppend_cancel_left (strAppend_cancel_left (strAppend_cancel_left h))
    have hd := congrArg String.data h3
    simp only [strData_append, List.cons_append, List.nil_append] at hd
    injection hd with hc _
    exact absurd hc (by decide)
  · have hi0 : i ≠ 0 := by omega
    have hj0 : j ≠ 0 := by omega
    simp only [generateJobName, hi0, hj0, ne_eq, not_false_eq_true, if_true,
      strAppend_assoc] at h
    have h6 := strAppend_cancel_left (strAppend_cancel_left (strAppend_cancel_left
      (strAppend_cancel_left (strAppend_cancel_left (strAppend_cancel_left h)))))
    exact hij (natToString_injective (strAppend_cancel_left h6))
  · have hi0 : i ≠ 0 := by omega
    simp only [generateJobName, hi0, ne_eq, not_false_eq_true, if_true,
      strAppend_assoc] at h
    have h6 := strAppend_cancel_left (strAppend_cancel_left (strAppend_cancel_left
      (strAppend_cancel_left (strAppend_cancel_left (strAppend_cancel_left h)))))
    have hd := congrArg String.data h6
    simp only [strData_append] at hd
    simp at hd

theorem generateJobName_partial_injectivity_witness :
    (5 : Nat) ≠ 7 ∧ (0 : Nat) < 1 ∧ (0 : Nat) < 2 ∧ (1 : Nat) ≠ 2 ∧
      generateJobName "a.mp4" "english" 5 none ≠ generateJobName "a.mp4" "english" 7 none ∧
      generateJobName "a.mp4" "english" 5 none ≠ generateJobName "a.mp4" "spanish" 5 none ∧
      generateJobName "a.mp4" "english" 5 (some 1)
        ≠ generateJobName "a.mp4" "english" 5 (some 2) ∧
      generateJobName "a.mp4" "english" 5 (some 1) ≠ generateJobName "a.mp4" "english" 5 none :=
  ⟨by decide, by decide, by decide, by decide,
    generateJobName_partial_injectivity.1 "a.mp4" "english" none 5 7 (by decide),
    generateJobName_partial_injectivity.2.1 "a.mp4" none 5,
    generateJobName_partial_injectivity.2.2.1 "a.mp4" "english" 5 1 2
      (by decide) (by decide) (by decide),
    generateJobName_partial_injectivity.2.2.2 "a.mp4" "english" 5 1 (by decide)⟩

/-! ## CaptionCodec (C3)

Modelled from the spec: the repository contains no SRT parser or serializer
(its `mergeSubtitles` never parses), so `parse` and `format` below follow
§4.1 of the spec.  A caption document is modelled as its list of lines (the
wire string split on newlines); a cue's text is its list of text lines
("one or more text lines", "embedded line breaks preserved").  `parse`
splits the lines into blank-line-delimited blocks; a block parses to a cue
when it has an index line, a `digits:digits:digits,digits --> …` timestamp
line and at least one text line, and is silently skipped otherwise; zero
valid cues is a `ParseError`.  `format` renders each cue as its index line,
timestamp line (fields zero-padded to 2/2/2/3 digits) and text lines,
followed by a blank separator line. -/

structure Cue where
  index : Nat
  startMs : Nat
  endMs : Nat
  text : List String
deriving DecidableEq

inductive ParseError where
  | noValidCues
deriving DecidableEq

/-- `String(n).padStart(2, "0")`. -/
def padStart2 (n : Nat) : String :=
  String.mk (List.replicate (2 - (natToString n).length) '0' ++ (natToString n).data)

/-- `HH:MM:SS,mmm` rendering of a millisecond count. -/
def msToTimestamp (t : Nat) : String :=
  padStart2 (t / 3600000) ++ ":" ++ padStart2 (t % 3600000 / 60000) ++ ":"
    ++ padStart2 (t % 60000 / 1000) ++ "," ++ padStart3 (t % 1000)

/-- The `start --> end` timestamp line of a cue. -/
def timestampLine (s e : Nat) : String :=
  msToTimestamp s ++ " --> " ++ msToTimestamp e

/-- The lines of one formatted cue (index, timestamps, text lines). -/
def cueLines (c : Cue) : List String :=
  natToString c.index :: timestampLine c.startMs c.endMs :: c.text

/-- `format`: each cue's lines followed by a blank separator line. -/
def format (track : List Cue) : List String :=
  track.flatMap fun c => cueLines c ++ [""]

/-- Greedy decimal-number scanner: consumes leading digits, fails on none. -/
def parseNatPart (cs : List Char) : Option (Nat × List Char) :=
  let d := cs.takeWhile isDigitChar
  if d.isEmpty then none
  else some (digitsToNat d, cs.dropWhile isDigitChar)

/-- Expect one specific character at the head. -/
def expectChar (c : Char) : List Char → Option (List Char)
  | x :: rest => if x = c then some rest else none
  | [] => none

/-- Expect the ` --> ` separator at the head. -/
def expectArrow : List Char → Option (List Char)
  | ' ' :: '-' :: '-' :: '>' :: ' ' :: rest => some rest
  | _ => none

/-- Scan `h:m:s,ms` at the head of the character list and return the
millisecond value and the remaining characters. -/
def parseTimeChars (cs : List Char) : Option (Nat × List Char) :=
  Option.bind (parseNatPart cs) fun hr =>
  Option.bind (expectChar ':' hr.2) fun r1 =>
  Option.bind (parseNatPart r1) fun mr =>
  Option.bind (expectChar ':' mr.2) fun r2 =>
  Option.bind (parseNatPart r2) fun sr =>
  Option.bind (expectChar ',' sr.2) fun r3 =>
  Option.bind (parseNatPart r3) fun msr =>
  some (hr.1 * 3600000 + mr.1 * 60000 + sr.1 * 1000 + msr.1, msr.2)

/-- Parse a full `start --> end` timestamp line (nothing may follow). -/
def parseTimestampLine (line : String) : Option (Nat × Nat) :=
  Option.bind (parseTimeChars line.data) fun t1r =>
  Option.bind (expectArrow t1r.2) fun r2 =>
  Option.bind (parseTimeChars r2) fun t2r =>
  if t2r.2.isEmpty then some (t1r.1, t2r.1) else none

/-- Parse a whole index line as a decimal number. -/
def parseNatStr (s : String) : Option Nat :=
  if s.data.isEmpty then none
  else if s.data.all isDigitChar then some (digitsToNat s.data)
  else none

/-- Parse one blank-line-delimited block: index line, timestamp line, one or
more text lines; anything else is skipped (`none`). -/
def parseBlock (block : List String) : Option Cue :=
  match block with
  | idxLine :: tsLine :: textLines =>
      if textLines.isEmpty then none
      else
        match parseNatStr idxLine, parseTimestampLine tsLine with
        | some i, some (s, e) =>
            some { index := i, startMs := s, endMs := e, text := textLines }
        | _, _ => none
  | _ => none

/-- Split a document's lines into blank-line-delimited blocks. -/
def splitBlocks (ls : List String) : List (List String) :=
  ls.foldr
    (fun l acc =>
      if l = "" then [] :: acc
      else
        match acc with
        | [] => [[l]]
        | b :: bs => (l :: b) :: bs)
    []

/-- `parse`: blocks that parse become cues in document order; zero valid
cues is a `ParseError`. -/
def parse (doc : List String) : Except ParseError (List Cue) :=
  let cues := (splitBlocks doc).filterMap parseBlock
  if cues.isEmpty then .error .noValidCues else .ok cues

/-! ### Round-trip lemmas for the timestamp scanner -/

theorem digitVal_zero_char : digitVal '0' = 0 := by decide

theorem digitsToNat_replicate_zero (k : Nat) (cs : List Char) :
    digitsToNat (List.replicate k '0' ++ cs) = digitsToNat cs := by
  induction k with
  | zero => simp
  | succ k ih =>
      simpa [digitsToNat, List.foldl_cons, digitVal_zero_char] using ih

theorem padStart2_data (n : Nat) :
    (padStart2 n).data
      = List.replicate (2 - (natToString n).length) '0' ++ (natToString n).data := rfl

theorem padStart3_data (n : Nat) :
    (padStart3 n).data
      = List.replicate (3 - (natToString n).length) '0' ++ (natToString n).data := rfl

theorem padded_all_digits (k n : Nat) :
    ∀ c ∈ List.replicate k '0' ++ (natToString n).data, isDigitChar c = true := by
  intro c hc
  rcases List.mem_append.1 hc with h | h
  · rw [List.eq_of_mem_replicate h]; decide
  · exact natToString_data_all_digits n c h

theorem padded_ne_nil (k n : Nat) :
    List.replicate k '0' ++ (natToString n).data ≠ [] := by
  simp [List.append_eq_nil, natToString_data_ne_nil n]

theorem digitsToNat_padded (k n : Nat) :
    digitsToNat (List.replicate k '0' ++ (natToString n).data) = n := by
  rw [digitsToNat_replicate_zero, digitsToNat_natToString]

theorem takeWhile_dropWhile_append {p : Char → Bool} :
    ∀ (A B : List Char), (∀ a ∈ A, p a = true) →
      (∀ b, B.head? = some b → p b = false) →
      (A ++ B).takeWhile p = A ∧ (A ++ B).dropWhile p = B := by
  intro A
  induction A with
  | nil =>
      intro B _ hB
      cases B with
      | nil => exact ⟨rfl, rfl⟩
      | cons b bs =>
          have hb := hB b rfl
          constructor
          · simp [List.takeWhile_cons, hb]
          · simp [List.dropWhile_cons, hb]
  | cons a A ih =>
      intro B hA hB
      have hpa : p a = true := hA a (by simp)
      have hrest := ih B (fun x hx => hA x (by simp [hx])) hB
      constructor
      · simp [List.takeWhile_cons, hpa, hrest.1]
      · simp [List.dropWhile_cons, hpa, hrest.2]

theorem parseNatPart_append (d B : List Char) (hd : d ≠ [])
    (hall : ∀ a ∈ d, isDigitChar a = true)
    (hB : ∀ b, B.head? = some b → isDigitChar b = false) :
    parseNatPart (d ++ B) = some (digitsToNat d, B) := by
  obtain ⟨ht, hdr⟩ := takeWhile_dropWhile_append d B hall hB
  have hne : d.isEmpty = false := by
    cases d with
    | nil => exact absurd rfl hd
    | cons x xs => rfl
  simp [parseNatPart, ht, hdr, hne]

theorem head_cons_not_digit {c : Char} (hc : isDigitChar c = false) (rest : List Char) :
    ∀ b, (c :: rest).head? = some b → isDigitChar b = false := by
  intro b hb
  simp only [List.head?_cons, Option.some.injEq] at hb
  rw [← hb]
  exact hc

theorem expectChar_cons (c : Char) (rest : List Char) :
    expectChar c (c :: rest) = some rest := by
  simp [expectChar]

theorem parseTimeChars_msToTimestamp (t : Nat) (B : List Char)
    (hB : ∀ b, B.head? = some b → isDigitChar b = false) :
    parseTimeChars ((msToTimestamp t).data ++ B) = some (t, B) := by
  have hdata : (msToTimestamp t).data ++ B
      = (List.replicate (2 - (natToString (t / 3600000)).length) '0'
          ++ (natToString (t / 3600000)).data)
        ++ (':' :: ((List.replicate (2 - (natToString (t % 3600000 / 60000)).length) '0'
          ++ (natToString (t % 3600000 / 60000)).data)
        ++ (':' :: ((List.replicate (2 - (natToString (t % 60000 / 1000)).length) '0'
          ++ (natToString (t % 60000 / 1000)).data)
        ++ (',' :: ((List.replicate (3 - (natToString (t % 1000)).length) '0'
          ++ (natToString (t % 1000)).data)
        ++ B)))))) := by
    simp [msToTimestamp, strData_append, padStart2_data, padStart3_data, List.append_assoc]
  rw [hdata]
  unfold parseTimeChars
  rw [parseNatPart_append _ _ (padded_ne_nil _ _) (padded_all_digits _ _)
    (head_cons_not_digit (by decide) _)]
  simp only [Option.some_bind]
  rw [expectChar_cons]
  simp only [Option.some_bind]
  rw [parseNatPart_append _ _ (padded_ne_nil _ _) (padded_all_digits _ _)
    (head_cons_not_digit (by decide) _)]
  simp only [Option.some_bind]
  rw [expectChar_cons]
  simp only [Option.some_bind]
  rw [parseNatPart_append _ _ (padded_ne_nil _ _) (padded_all_digits _ _)
    (head_cons_not_digit (by decide) _)]
  simp only [Option.some_bind]
  rw [expectChar_cons]
  simp only [Option.some_bind]
  rw [parseNatPart_append _ _ (padded_ne_nil _ _) (padded_all_digits _ _) hB]
  simp only [Option.some_bind, digitsToNat_padded]
  have hval : t / 3600000 * 3600000 + t % 3600000 / 60000 * 60000
      + t % 60000 / 1000 * 1000 + t % 1000 = t := by omega
  simp [hval]

/-! ### Round-trip lemmas for lines, blocks and documents -/

theorem parseTimeChars_msToTimestamp_nil (t : Nat) :
    parseTimeChars (msToTimestamp t).data = some (t, []) := by
  have h := parseTimeChars_msToTimestamp t [] (fun b hb => by cases hb)
  simpa using h

theorem expectArrow_cons (rest : List Char) :
    expectArrow (' ' :: '-' :: '-' :: '>' :: ' ' :: rest) = some rest := rfl

theorem parseTimestampLine_timestampLine (s e : Nat) :
    parseTimestampLine (timestampLine s e) = some (s, e) := by
  have hdata : (timestampLine s e).data
      = (msToTimestamp s).data
        ++ (' ' :: '-' :: '-' :: '>' :: ' ' :: (msToTimestamp e).data) := by
    simp [timestampLine, strData_append, List.append_assoc]
  unfold parseTimestampLine
  rw [hdata, parseTimeChars_msToTimestamp s _ (head_cons_not_digit (by decide) _)]
  simp only [Option.some_bind]
  rw [expectArrow_cons]
  simp only [Option.some_bind]
  rw [parseTimeChars_msToTimestamp_nil]
  simp only [Option.some_bind]
  simp

theorem parseNatStr_natToString (n : Nat) : parseNatStr (natToString n) = some n := by
  have hne := natToString_data_ne_nil n
  have hisempty : (natToString n).data.isEmpty = false := by
    cases h : (natToString n).data with
    | nil => exact absurd h hne
    | cons a l => rfl
  have hall : (natToString n).data.all isDigitChar = true :=
    List.all_eq_true.2 (natToString_data_all_digits n)
  simp [parseNatStr, hisempty, hall, digitsToNat_natToString]

theorem natToString_ne_empty (n : Nat) : natToString n ≠ "" := by
  intro h
  exact natToString_data_ne_nil n (by rw [h])

theorem timestampLine_ne_empty (s e : Nat) : timestampLine s e ≠ "" := by
  intro h
  have hd := congrArg String.data h
  simp [timestampLine, strData_append] at hd

theorem parseBlock_cueLines (c : Cue) (htext : c.text ≠ []) :
    parseBlock (cueLines c) = some c := by
  have hempty : c.text.isEmpty = false := by
    cases h : c.text with
    | nil => exact absurd h htext
    | cons a l => rfl
  simp [parseBlock, cueLines, hempty, parseNatStr_natToString,
    parseTimestampLine_timestampLine]

theorem splitBlocks_blank_cons (B : List String) :
    splitBlocks ("" :: B) = [] :: splitBlocks B := by
  simp [splitBlocks]

theorem splitBlocks_cons_ne (l : String) (B : List String) (h : l ≠ "") :
    splitBlocks (l :: B)
      = match splitBlocks B with
        | [] => [[l]]
        | b :: bs => (l :: b) :: bs := by
  simp [splitBlocks, h]

theorem splitBlocks_block_append :
    ∀ (A : List String), A ≠ [] → (∀ a ∈ A, a ≠ "") →
      ∀ B, splitBlocks (A ++ "" :: B) = A :: splitBlocks B := by
  intro A
  induction A with
  | nil => intro h; exact absurd rfl h
  | cons a A ih =>
      intro _ hall B
      have ha : a ≠ "" := hall a (by simp)
      cases A with
      | nil =>
          simp only [List.cons_append, List.nil_append]
          rw [splitBlocks_cons_ne a _ ha, splitBlocks_blank_cons]
      | cons a2 A2 =>
          have hrec := ih (by simp) (fun x hx => hall x (by simp [hx])) B
          simp only [List.cons_append] at hrec ⊢
          rw [splitBlocks_cons_ne a _ ha, hrec]

theorem cueLines_ne_nil (c : Cue) : cueLines c ≠ [] := by
  simp [cueLines]

theorem cueLines_all_ne_empty (c : Cue) (htext : ∀ l ∈ c.text, l ≠ "") :
    ∀ l ∈ cueLines c, l ≠ "" := by
  intro l hl
  simp only [cueLines, List.mem_cons] at hl
  rcases hl with rfl | rfl | hl
  · exact natToString_ne_empty _
  · exact timestampLine_ne_empty _ _
  · exact htext l hl

theorem filterMap_parseBlock_format (track : List Cue)
    (hgood : ∀ c ∈ track, c.text ≠ [] ∧ ∀ l ∈ c.text, l ≠ "") :
    (splitBlocks (format track)).filterMap parseBlock = track := by
  induction track with
  | nil => rfl
  | cons c cs ih =>
      have hc := hgood c (by simp)
      have hformat : format (c :: cs) = cueLines c ++ "" :: format cs := by
        simp [format, List.append_assoc]
      rw [hformat,
        splitBlocks_block_append (cueLines c) (cueLines_ne_nil c)
          (cueLines_all_ne_empty c hc.2)]
      have hcons : (cueLines c :: splitBlocks (format cs)).filterMap parseBlock
          = c :: (splitBlocks (format cs)).filterMap parseBlock := by
        rw [List.filterMap_cons, parseBlock_cueLines c hc.1]
      rw [hcons, ih fun x hx => hgood x (by simp [hx])]

theorem parse_format (track : List Cue) (hne : track ≠ [])
    (hgood : ∀ c ∈ track, c.text ≠ [] ∧ ∀ l ∈ c.text, l ≠ "") :
    parse (format track) = .ok track := by
  simp only [parse]
  rw [filterMap_parseBlock_format track hgood]
  cases track with
  | nil => exact absurd rfl hne
  | cons c cs => rfl

/-- **C3 counterexample.** The round-trip law fails as stated: the track
consisting of the single cue `⟨1, 0 ms, 1000 ms, empty text⟩` has
non-negative integer-millisecond timestamps and indices `1..N`, yet the
empty text line makes the formatted block collapse under blank-line
splitting to a two-line block, which is skipped, so `parse ∘ format`
returns `ParseError` instead of the track. -/
theorem captionCodec_roundTrip_cex :
    ([⟨1, 0, 1000, [""]⟩] : List Cue).map Cue.index
        = List.range' 1 ([⟨1, 0, 1000, [""]⟩] : List Cue).length ∧
      parse (format [⟨1, 0, 1000, [""]⟩]) ≠ .ok [⟨1, 0, 1000, [""]⟩] := by
  constructor
  · decide
  · intro h
    have hcomp : parse (format [(⟨1, 0, 1000, [""]⟩ : Cue)])
        = .error .noValidCues := rfl
    rw [hcomp] at h
    exact Except.noConfusion h

/-- **C3 (amended).** For every non-empty CaptionTrack whose timestamps are
non-negative integer milliseconds (`Nat` by construction), whose cue
indices are `1..N`, and whose every cue has at least one text line, each
non-empty and newline-free, the codec satisfies
`parse (format track) = track`. -/
theorem captionCodec_roundTrip (track : List Cue)
    (hne : track ≠ [])
    (hidx : track.map Cue.index = List.range' 1 track.length)
    (htext : ∀ c ∈ track, c.text ≠ [] ∧ ∀ l ∈ c.text, l ≠ "" ∧ '\n' ∉ l.data) :
    parse (format track) = .ok track :=
  parse_format track hne fun c hc =>
    ⟨(htext c hc).1, fun l hl => ((htext c hc).2 l hl).1⟩

theorem captionCodec_roundTrip_witness :
    (([⟨1, 0, 1500, ["hello"]⟩, ⟨2, 1600, 3723004, ["a", "b"]⟩] : List Cue) ≠ []) ∧
      ([⟨1, 0, 1500, ["hello"]⟩, ⟨2, 1600, 3723004, ["a", "b"]⟩] : List Cue).map Cue.index
        = List.range' 1 2 ∧
      parse (format [⟨1, 0, 1500, ["hello"]⟩, ⟨2, 1600, 3723004, ["a", "b"]⟩])
        = .ok [⟨1, 0, 1500, ["hello"]⟩, ⟨2, 1600, 3723004, ["a", "b"]⟩] :=
  ⟨by decide, by decide,
    captionCodec_roundTrip _ (by decide) (by decide) (by decide)⟩
